import Mathlib

/-!
Verification of the restreamer broadcast relay (src/main.rs) against its
specification.  The development shallowly embeds the three parts of the
program that the claims are about:

* the read side of the `TSPacket` framer (`fill_read_buf` and
  `impl Stream for TSPacket::poll`, lines 181-211), which re-chunks a TCP
  byte stream into `buffer_size`-byte frames;
* the write side (`TSPacket::buffer`, `TSPacket::poll_flush`, lines 157-179)
  together with the consumer drain loop of `impl Future for Peer::poll`
  (lines 90-107);
* the shared peer registry and the connection lifecycle (`Shared`,
  `Peer::new`, `impl Drop for Peer`, and the producer broadcast branch of
  `Peer::poll`, lines 34-132), modelled as a transition system whose steps
  are the lock-serialized critical sections of the program.

Bytes are modelled as natural numbers; machine-integer overflow is made
explicit with `% 2 ^ 16` where it matters (the `u16` port arithmetic of
`main`).
-/

namespace Restreamer

/-- Result of one `poll` of `impl Stream for TSPacket` (src/main.rs
lines 192-211): a frame (`Ok(Async::Ready(Some(pkt)))`), end of stream
(`Ok(Async::Ready(None))`), or `Ok(Async::NotReady)`. -/
inductive PollResult where
  | frame (f : List Nat)
  | eos
  | notReady
deriving DecidableEq

/-- Whether a poll result carries a frame. -/
def PollResult.isFrame : PollResult → Bool
  | .frame _ => true
  | _ => false

/-- One `poll` of `impl Stream for TSPacket` (src/main.rs lines 196-210).
`rd` is the accumulation buffer before the poll, `avail` the bytes the
`fill_read_buf` loop appends during this poll (everything the socket had
ready), and `sockClosed` records whether that loop observed a zero-byte
read (end of stream).  The poll slices one `bufferSize`-byte frame off the
front when the buffer holds strictly more than `bufferSize` bytes
(`self.rd.len() > self.buffer_size`), otherwise reports end-of-stream or
not-ready.  Returns the new accumulation buffer and the result. -/
def tsPacketPoll (bufferSize : Nat) (rd avail : List Nat) (sockClosed : Bool) :
    List Nat × PollResult :=
  if bufferSize < (rd ++ avail).length then
    ((rd ++ avail).drop bufferSize, PollResult.frame ((rd ++ avail).take bufferSize))
  else if sockClosed then (rd ++ avail, PollResult.eos)
  else (rd ++ avail, PollResult.notReady)

/-- The producer task's poll loop (`while let Async::Ready(pkt) =
self.packets.poll()`, src/main.rs lines 109-119) run over the whole life of
the connection.  Each entry of `arrivals` is the byte chunk that one poll's
`fill_read_buf` gathers; after the last entry the socket is closed, so
every later read returns zero bytes.  Returns the list of frames the
stream yields, in order, or `none` if `fuel` polls were not enough (with
`bufferSize = 0` the source loops forever re-slicing empty frames, which a
total function cannot return). -/
def runPolls (fs : Nat) : Nat → List Nat → List (List Nat) → Option (List (List Nat))
  | 0, _, _ => none
  | fuel + 1, rd, [] =>
    match tsPacketPoll fs rd [] true with
    | (rd2, PollResult.frame f) => (runPolls fs fuel rd2 []).map (f :: ·)
    | (_, PollResult.eos) => some []
    | (rd2, PollResult.notReady) => runPolls fs fuel rd2 []
  | fuel + 1, rd, a :: rest =>
    match tsPacketPoll fs rd a false with
    | (rd2, PollResult.frame f) => (runPolls fs fuel rd2 rest).map (f :: ·)
    | (_, PollResult.eos) => some []
    | (rd2, PollResult.notReady) => runPolls fs fuel rd2 rest

/-- The pure shape of the code's chunking: slice `fs` bytes off the front
as long as strictly more than `fs` bytes remain; whatever is left at the
end (up to and including a final chunk of exactly `fs` bytes) is dropped.
For `fs = 0` the source diverges, so this function (used only under a
`0 < fs` hypothesis) returns `[]`. -/
def chunksStrict (fs : Nat) (s : List Nat) : List (List Nat) :=
  if _h : fs < s.length ∧ 0 < fs then
    s.take fs :: chunksStrict fs (s.drop fs)
  else []
termination_by s.length
decreasing_by simp only [List.length_drop]; omega

theorem chunksStrict_cons (fs : Nat) (s : List Nat) (h1 : 0 < fs) (h2 : fs < s.length) :
    chunksStrict fs s = s.take fs :: chunksStrict fs (s.drop fs) := by
  rw [chunksStrict, dif_pos ⟨h2, h1⟩]

theorem chunksStrict_nil (fs : Nat) (s : List Nat) (h2 : ¬ fs < s.length) :
    chunksStrict fs s = [] := by
  rw [chunksStrict, dif_neg]
  exact fun hc => h2 hc.1

theorem runPolls_closed_frame (fs n : Nat) (rd : List Nat) (h : fs < rd.length) :
    runPolls fs (n + 1) rd [] = (runPolls fs n (rd.drop fs) []).map (rd.take fs :: ·) := by
  simp [runPolls, tsPacketPoll, h]

theorem runPolls_closed_eos (fs n : Nat) (rd : List Nat) (h : ¬ fs < rd.length) :
    runPolls fs (n + 1) rd [] = some [] := by
  simp [runPolls, tsPacketPoll, h]

theorem runPolls_open_frame (fs n : Nat) (rd a : List Nat) (rest : List (List Nat))
    (h : fs < (rd ++ a).length) :
    runPolls fs (n + 1) rd (a :: rest) =
      (runPolls fs n ((rd ++ a).drop fs) rest).map ((rd ++ a).take fs :: ·) := by
  have h' : fs < rd.length + a.length := by simpa using h
  simp [runPolls, tsPacketPoll, h']

theorem runPolls_open_wait (fs n : Nat) (rd a : List Nat) (rest : List (List Nat))
    (h : ¬ fs < (rd ++ a).length) :
    runPolls fs (n + 1) rd (a :: rest) = runPolls fs n (rd ++ a) rest := by
  have h' : ¬ fs < rd.length + a.length := by simpa using h
  simp [runPolls, tsPacketPoll, h']

/-- The poll loop, run with enough fuel, yields exactly the strict chunking
of the concatenated byte stream, whatever the pattern in which the bytes
arrived. -/
theorem runPolls_eq_chunksStrict (fs : Nat) (hfs : 0 < fs) :
    ∀ (fuel : Nat) (rd : List Nat) (arrivals : List (List Nat)),
      arrivals.length + rd.length + arrivals.flatten.length + 1 ≤ fuel →
      runPolls fs fuel rd arrivals = some (chunksStrict fs (rd ++ arrivals.flatten)) := by
  intro fuel
  induction fuel with
  | zero => intro rd arrivals h; omega
  | succ n ih =>
    intro rd arrivals h
    cases arrivals with
    | nil =>
      by_cases hlen : fs < rd.length
      · rw [runPolls_closed_frame fs n rd hlen,
          ih (rd.drop fs) [] (by simp at h ⊢; omega)]
        simp only [List.flatten_nil, List.append_nil]
        rw [chunksStrict_cons fs rd hfs hlen]
        simp
      · rw [runPolls_closed_eos fs n rd hlen]
        simp only [List.flatten_nil, List.append_nil]
        rw [chunksStrict_nil fs rd hlen]
    | cons a rest =>
      by_cases hlen : fs < (rd ++ a).length
      · rw [runPolls_open_frame fs n rd a rest hlen,
          ih ((rd ++ a).drop fs) rest (by simp at h ⊢; omega)]
        have hchunk : chunksStrict fs (rd ++ (a :: rest).flatten) =
            (rd ++ a).take fs :: chunksStrict fs ((rd ++ a).drop fs ++ rest.flatten) := by
          have hassoc : rd ++ (a :: rest).flatten = (rd ++ a) ++ rest.flatten := by
            simp
          rw [hassoc, chunksStrict_cons fs ((rd ++ a) ++ rest.flatten) hfs
            (by simp only [List.length_append] at hlen ⊢; omega),
            List.take_append_of_le_length hlen.le,
            List.drop_append_of_le_length hlen.le]
        rw [hchunk]
        simp
      · rw [runPolls_open_wait fs n rd a rest hlen,
          ih (rd ++ a) rest (by simp at h ⊢; omega)]
        have hassoc : (rd ++ a) ++ rest.flatten = rd ++ (a :: rest).flatten := by simp
        rw [hassoc]

/-- The strict chunking of a stream of `L` bytes yields `(L - 1) / fs`
frames; in particular an exact multiple `L = k * fs` with `0 < k` yields
`k - 1` frames, not `k`. -/
theorem chunksStrict_length (fs : Nat) (hfs : 0 < fs) :
    ∀ (n : Nat) (s : List Nat), s.length ≤ n →
      (chunksStrict fs s).length = (s.length - 1) / fs := by
  intro n
  induction n with
  | zero =>
    intro s hs
    have h0 : s.length = 0 := by omega
    rw [chunksStrict_nil fs s (by omega)]
    simp [h0]
  | succ n ih =>
    intro s hs
    by_cases hlen : fs < s.length
    · rw [chunksStrict_cons fs s hfs hlen]
      have hrec := ih (s.drop fs) (by simp; omega)
      simp only [List.length_cons, hrec, List.length_drop]
      have hsplit : s.length - 1 = (s.length - fs - 1) + fs := by omega
      rw [hsplit, Nat.add_div_right _ hfs]
    · rw [chunksStrict_nil fs s hlen]
      have : s.length - 1 < fs := by omega
      simp [Nat.div_eq_of_lt this]

/-- C1: the claim predicts that the 8-byte stream "ABCDEFGH" chunked at
frame size 4 is delivered as the two frames "ABCD", "EFGH" with nothing
dropped.  The code delivers only "ABCD": the strict comparison
`self.rd.len() > self.buffer_size` never lets the last exactly-4-byte
chunk out before end-of-stream discards it. -/
theorem tsPacket_C1_counterexample :
    runPolls 4 12 [] [[65, 66, 67, 68, 69, 70, 71, 72]] = some [[65, 66, 67, 68]] ∧
    runPolls 4 12 [] [[65, 66, 67, 68, 69, 70, 71, 72]] ≠
      some [[65, 66, 67, 68], [69, 70, 71, 72]] := by
  constructor
  · rfl
  · decide

/-- C1 (amended): for every producer byte stream, delivered however the
network fragments it, the frames handed to `broadcast` are the stream
sliced `frame_size` bytes at a time for as long as strictly more than
`frame_size` bytes remain; the trailing remainder of up to and including
`frame_size` bytes is dropped.  A stream of `L` bytes therefore yields
`(L - 1) / frame_size` frames, so an exact multiple `L = k * frame_size`
yields `k - 1` frames, not `k`. -/
theorem tsPacket_C1_amended (fs fuel : Nat) (arrivals : List (List Nat))
    (hfs : 0 < fs)
    (hfuel : arrivals.length + arrivals.flatten.length + 1 ≤ fuel) :
    runPolls fs fuel [] arrivals = some (chunksStrict fs arrivals.flatten) ∧
    (chunksStrict fs arrivals.flatten).length = (arrivals.flatten.length - 1) / fs := by
  constructor
  · have := runPolls_eq_chunksStrict fs hfs fuel [] arrivals (by simpa using hfuel)
    simpa using this
  · exact chunksStrict_length fs hfs arrivals.flatten.length arrivals.flatten le_rfl

/-- Witness for C1 (amended) at frame size 4 and the byte stream
"ABCDEFGH" arriving in one read. -/
theorem tsPacket_C1_amended_witness :
    (0 < 4 ∧ [[65, 66, 67, 68, 69, 70, 71, 72]].length +
        [[65, 66, 67, 68, 69, 70, 71, 72]].flatten.length + 1 ≤ 12) ∧
    (runPolls 4 12 [] [[65, 66, 67, 68, 69, 70, 71, 72]] =
        some (chunksStrict 4 [[65, 66, 67, 68, 69, 70, 71, 72]].flatten) ∧
      (chunksStrict 4 [[65, 66, 67, 68, 69, 70, 71, 72]].flatten).length =
        ([[65, 66, 67, 68, 69, 70, 71, 72]].flatten.length - 1) / 4) :=
  ⟨⟨by decide, by decide⟩,
    tsPacket_C1_amended 4 12 [[65, 66, 67, 68, 69, 70, 71, 72]] (by decide) (by decide)⟩

/-- C2: a poll of the framer yields a frame exactly when the accumulation
buffer (old contents plus the bytes this poll read) holds strictly more
than `frame_size` bytes, and in that case the frame is exactly the first
`frame_size` buffered bytes, sliced off the front: a buffer holding
exactly `frame_size` bytes yields nothing until at least one more byte
has arrived. -/
theorem tsPacket_C2_strict_slice (fs : Nat) (rd avail : List Nat) (sockClosed : Bool) :
    ((tsPacketPoll fs rd avail sockClosed).2.isFrame =
      decide (fs < (rd ++ avail).length)) ∧
    (fs < (rd ++ avail).length →
      tsPacketPoll fs rd avail sockClosed =
        ((rd ++ avail).drop fs, PollResult.frame ((rd ++ avail).take fs)) ∧
      ((rd ++ avail).take fs).length = fs ∧
      (rd ++ avail).take fs ++ (rd ++ avail).drop fs = rd ++ avail) := by
  constructor
  · by_cases h : fs < rd.length + avail.length
    · simp [tsPacketPoll, h, PollResult.isFrame]
    · cases sockClosed <;> simp [tsPacketPoll, h, PollResult.isFrame]
  · intro h
    have h' : fs < rd.length + avail.length := by simpa using h
    refine ⟨by simp [tsPacketPoll, h'], ?_, List.take_append_drop fs (rd ++ avail)⟩
    rw [List.length_take]
    exact Nat.min_eq_left h.le

/-- Witness for C2: with frame size 2, the buffer [1, 2] plus one newly
read byte is sliced, while the buffer [1, 2] alone (exactly the frame
size) is not. -/
theorem tsPacket_C2_witness :
    (2 < ([1, 2] ++ [3] : List Nat).length ∧
      tsPacketPoll 2 [1, 2] [3] false = ([3], PollResult.frame [1, 2]) ∧
      (([1, 2] ++ [3] : List Nat).take 2).length = 2 ∧
      ([1, 2] ++ [3] : List Nat).take 2 ++ ([1, 2] ++ [3] : List Nat).drop 2 =
        [1, 2] ++ [3]) ∧
    (tsPacketPoll 2 [1, 2] [] false).2.isFrame = decide (2 < ([1, 2] ++ ([] : List Nat)).length) :=
  ⟨⟨by decide, ((tsPacket_C2_strict_slice 2 [1, 2] [3] false).2 (by decide)).1,
      ((tsPacket_C2_strict_slice 2 [1, 2] [3] false).2 (by decide)).2.1,
      ((tsPacket_C2_strict_slice 2 [1, 2] [3] false).2 (by decide)).2.2⟩,
    (tsPacket_C2_strict_slice 2 [1, 2] [] false).1⟩

/-- C5: once a read has returned zero bytes the stream reports
end-of-stream, and a leftover accumulation buffer of fewer than
`frame_size` bytes is discarded without ever being emitted; concretely,
the 5-byte stream "ABCDE" at frame size 4 is delivered as the single
frame "ABCD" and the trailing "E" is never delivered. -/
theorem tsPacket_C5_remainder_dropped (fs : Nat) (rd avail : List Nat)
    (hshort : (rd ++ avail).length < fs) :
    tsPacketPoll fs rd avail true = (rd ++ avail, PollResult.eos) ∧
    runPolls 4 12 [] [[65, 66, 67, 68, 69]] = some [[65, 66, 67, 68]] := by
  have h' : ¬ fs < rd.length + avail.length := by
    simp only [List.length_append] at hshort
    omega
  exact ⟨by simp [tsPacketPoll, h'], rfl⟩

/-- Witness for C5 at frame size 4 with a 1-byte leftover buffer. -/
theorem tsPacket_C5_witness :
    ((([69] ++ [] : List Nat).length < 4) ∧
      tsPacketPoll 4 [69] [] true = ([69] ++ [], PollResult.eos) ∧
      runPolls 4 12 [] [[65, 66, 67, 68, 69]] = some [[65, 66, 67, 68]]) :=
  ⟨by decide, tsPacket_C5_remainder_dropped 4 [69] [] (by decide)⟩

/-- C6: every frame the read side yields has length exactly
`frame_size`, for every buffer state, every pattern of newly read bytes
and whether or not the socket has closed. -/
theorem tsPacket_C6_frame_length (fs : Nat) (rd avail : List Nat) (sockClosed : Bool)
    (rd2 f : List Nat)
    (h : tsPacketPoll fs rd avail sockClosed = (rd2, PollResult.frame f)) :
    f.length = fs := by
  by_cases hlen : fs < rd.length + avail.length
  · simp [tsPacketPoll, hlen] at h
    obtain ⟨-, hf⟩ := h
    have hle : fs ≤ (rd ++ avail).length := by
      simp only [List.length_append]
      omega
    rw [← hf, List.length_take]
    exact Nat.min_eq_left hle
  · cases sockClosed <;> simp [tsPacketPoll, hlen] at h

/-- Witness for C6: the frame sliced from the buffer "12345" at frame
size 4 has length 4. -/
theorem tsPacket_C6_witness :
    (tsPacketPoll 4 [] [1, 2, 3, 4, 5] false = ([5], PollResult.frame [1, 2, 3, 4])) ∧
    ([1, 2, 3, 4] : List Nat).length = 4 :=
  ⟨by decide, tsPacket_C6_frame_length 4 [] [1, 2, 3, 4, 5] false [5] [1, 2, 3, 4] (by decide)⟩

/-- The `BytesMut` write buffer `wr` of a `TSPacket`: its buffered bytes
and its allocated capacity.  `BufMut::remaining_mut` for `BytesMut` is
`capacity - length`. -/
structure WrBuf where
  data : List Nat
  cap : Nat
deriving DecidableEq

/-- The buffered length, `self.wr.len()`. -/
def WrBuf.len (b : WrBuf) : Nat := b.data.length

/-- `self.wr.remaining_mut()`. -/
def WrBuf.remainingMut (b : WrBuf) : Nat := b.cap - b.len

/-- `BytesMut::reserve(n)`: guarantee room for at least `n` more bytes,
growing the allocation if needed. -/
def WrBuf.reserve (b : WrBuf) (n : Nat) : WrBuf :=
  ⟨b.data, max b.cap (b.len + n)⟩

/-- `BufMut::put(line)`: append the bytes of `line`. -/
def WrBuf.put (b : WrBuf) (line : List Nat) : WrBuf :=
  ⟨b.data ++ line, b.cap⟩

/-- `BytesMut::split_to(n)` as it acts on the retained tail: the first
`n` bytes and their share of the capacity leave the buffer. -/
def WrBuf.splitTo (b : WrBuf) (n : Nat) : WrBuf :=
  ⟨b.data.drop n, b.cap - n⟩

/-- `TSPacket::buffer` (src/main.rs lines 157-161):
`self.wr.reserve(self.buffer_size * 4); self.wr.put(line);`. -/
def tsBuffer (bufferSize : Nat) (b : WrBuf) (line : List Nat) : WrBuf :=
  (b.reserve (bufferSize * 4)).put line

/-- One outcome of `self.socket.write(&self.wr)` inside the flush loop. -/
inductive WriteOutcome where
  | wrote (n : Nat)
  | wouldBlock
  | ioErr
deriving DecidableEq

/-- Result of `TSPacket::poll_flush` (src/main.rs lines 164-179):
`Ok(Async::Ready(false))` when the peer hung up, `Ok(Async::Ready(true))`
when the buffer drained, `Ok(Async::NotReady)` on would-block,
`Err` on an I/O error, or the `assert!(n > 0)` failure. -/
inductive FlushResult where
  | closedPeer
  | flushed
  | notReady
  | ioError
  | panicked
deriving DecidableEq

/-- The `while !self.wr.is_empty()` flush loop (src/main.rs lines
170-176).  `script` lists the outcomes the socket produces for the
successive `write` calls; an exhausted script stands for a socket that
would block.  A zero-byte write with a non-empty buffer trips
`assert!(n > 0)`, ending the connection's task: no later outcome of the
script is ever consumed. -/
def flushLoop : WrBuf → List WriteOutcome → WrBuf × FlushResult
  | b, [] =>
    if b.data.isEmpty then (b, FlushResult.flushed) else (b, FlushResult.notReady)
  | b, o :: rest =>
    if b.data.isEmpty then (b, FlushResult.flushed)
    else
      match o with
      | WriteOutcome.wouldBlock => (b, FlushResult.notReady)
      | WriteOutcome.ioErr => (b, FlushResult.ioError)
      | WriteOutcome.wrote n =>
        if n = 0 then (b, FlushResult.panicked) else flushLoop (b.splitTo n) rest

/-- `TSPacket::poll_flush` (src/main.rs lines 164-179): report the peer
hang-up first, otherwise run the flush loop. -/
def pollFlush (hup : Bool) (b : WrBuf) (script : List WriteOutcome) :
    WrBuf × FlushResult :=
  if hup then (b, FlushResult.closedPeer) else flushLoop b script

/-- C7: during a flush with no hang-up, a socket write that returns zero
bytes while the write buffer is non-empty trips the fatal
`assert!(n > 0)` for that connection; whatever the socket would have done
next (`rest`), no further write is attempted and the buffered bytes are
left as they were. -/
theorem tsPacket_C7_zero_write_fatal (b : WrBuf) (rest : List WriteOutcome)
    (hne : b.data ≠ []) :
    pollFlush false b (WriteOutcome.wrote 0 :: rest) = (b, FlushResult.panicked) := by
  simp [pollFlush, flushLoop, hne]

/-- Witness for C7: a one-byte buffer and a zero-byte write. -/
theorem tsPacket_C7_witness :
    ((⟨[1], 5⟩ : WrBuf).data ≠ []) ∧
    pollFlush false ⟨[1], 5⟩ [WriteOutcome.wrote 0, WriteOutcome.wrote 1] =
      (⟨[1], 5⟩, FlushResult.panicked) :=
  ⟨by decide, tsPacket_C7_zero_write_fatal ⟨[1], 5⟩ [WriteOutcome.wrote 1] (by decide)⟩

/-- Why the consumer drain loop of `Peer::poll` stopped (src/main.rs
lines 91-98): the `rx` queue had nothing ready (the `break` arm), or the
`while self.packets.wr.remaining_mut() > 0` condition failed. -/
inductive DrainExit where
  | queueEmpty
  | capacityStop
deriving DecidableEq

/-- The consumer drain loop of `impl Future for Peer::poll` (src/main.rs
lines 91-98): while the write buffer reports remaining capacity, pop the
next queued frame and `buffer` it; stop when the queue is momentarily
empty.  Returns the final write buffer, the unconsumed queue and the
reason the loop stopped. -/
def drainLoop (bufferSize : Nat) : WrBuf → List (List Nat) → WrBuf × List (List Nat) × DrainExit
  | b, [] =>
    if 0 < b.remainingMut then (b, [], DrainExit.queueEmpty)
    else (b, [], DrainExit.capacityStop)
  | b, v :: rest =>
    if 0 < b.remainingMut then drainLoop bufferSize (tsBuffer bufferSize b v) rest
    else (b, v :: rest, DrainExit.capacityStop)

/-- After `TSPacket::buffer` reserves `4 * frame_size` bytes and appends
one `frame_size`-byte frame, at least `3 * frame_size` bytes of capacity
remain. -/
theorem tsBuffer_remainingMut (fs : Nat) (b : WrBuf) (v : List Nat)
    (hv : v.length = fs) :
    fs * 3 ≤ (tsBuffer fs b v).remainingMut := by
  have hmax := Nat.le_max_right b.cap (b.len + fs * 4)
  simp only [tsBuffer, WrBuf.reserve, WrBuf.put, WrBuf.remainingMut, WrBuf.len,
    List.length_append, hv]
  omega

/-- C10: on a consumer scheduling turn that starts with positive
remaining write-buffer capacity, the drain loop never stops because
capacity ran out: it drains the whole queue, stops with the
queue-empty exit, and leaves positive remaining capacity, so the
`if self.packets.wr.remaining_mut() <= 0` re-schedule branch
(src/main.rs lines 100-102) is not taken and the positive-capacity
precondition holds again on the next turn. -/
theorem peer_C10_drain_stops_on_empty_queue (fs : Nat) (b : WrBuf) (q : List (List Nat))
    (hfs : 0 < fs) (hb : 0 < b.remainingMut) (hq : ∀ v ∈ q, v.length = fs) :
    (drainLoop fs b q).2.2 = DrainExit.queueEmpty ∧
    (drainLoop fs b q).2.1 = [] ∧
    0 < (drainLoop fs b q).1.remainingMut := by
  induction q generalizing b with
  | nil => simp [drainLoop, hb]
  | cons v rest ih =>
    have hv : v.length = fs := hq v (by simp)
    have hstep : 0 < (tsBuffer fs b v).remainingMut := by
      have := tsBuffer_remainingMut fs b v hv
      omega
    have hrec := ih (tsBuffer fs b v) hstep (fun w hw => hq w (by simp [hw]))
    simpa [drainLoop, hb] using hrec

/-- Witness for C10: frame size 4, a write buffer with 8 spare bytes and
a queue of two 4-byte frames. -/
theorem peer_C10_witness :
    (0 < 4 ∧ 0 < (⟨[], 8⟩ : WrBuf).remainingMut ∧
      [[1, 2, 3, 4], [5, 6, 7, 8]].all (fun v => List.length v = 4) = true) ∧
    ((drainLoop 4 ⟨[], 8⟩ [[1, 2, 3, 4], [5, 6, 7, 8]]).2.2 = DrainExit.queueEmpty ∧
      (drainLoop 4 ⟨[], 8⟩ [[1, 2, 3, 4], [5, 6, 7, 8]]).2.1 = [] ∧
      0 < (drainLoop 4 ⟨[], 8⟩ [[1, 2, 3, 4], [5, 6, 7, 8]]).1.remainingMut) :=
  ⟨⟨by decide, by decide, by decide⟩,
    peer_C10_drain_stops_on_empty_queue 4 ⟨[], 8⟩ [[1, 2, 3, 4], [5, 6, 7, 8]]
      (by decide) (by decide) (by intro v hv; fin_cases hv <;> decide)⟩

/-- A socket address. -/
abbrev Addr := Nat

/-- A live consumer `Peer`: its address and the contents of its unbounded
mpsc queue.  While the `Peer` is listed here its receiving half `rx` is
alive, so `unbounded_send` to it succeeds. -/
structure Consumer where
  addr : Addr
  queue : List (List Nat)
deriving DecidableEq

/-- Joint state of the program's connection lifecycle: the live consumer
`Peer`s with their queues, the live producer `Peer`s, and the key set of
the lock-protected `Shared.peers` map. -/
structure Sys where
  consumers : List Consumer
  producers : List Addr
  registry : List Addr
deriving DecidableEq

/-- Addresses of the currently live consumer connections. -/
def consumerAddrs (s : Sys) : List Addr := s.consumers.map Consumer.addr

/-- Addresses of all currently live connections. -/
def liveAddrs (s : Sys) : List Addr := consumerAddrs s ++ s.producers

/-- Key-set effect of `HashMap::insert`: a reconnect from a present
address replaces the entry, leaving the key set unchanged. -/
def registryInsert (r : List Addr) (a : Addr) : List Addr :=
  if a ∈ r then r else a :: r

/-- Key-set effect of `HashMap::remove`: drop the key, a no-op when it is
absent. -/
def registryRemove (r : List Addr) (a : Addr) : List Addr :=
  r.filter (fun x => x ≠ a)

/-- `Peer::new` (src/main.rs lines 66-83): allocate the mpsc channel and,
only when the socket is not the producer, insert the address and the
sending half into `Shared.peers`. -/
def peerNew (s : Sys) (a : Addr) (producer : Bool) : Sys :=
  if producer then { s with producers := a :: s.producers }
  else
    { s with
      consumers := ⟨a, []⟩ :: s.consumers,
      registry := registryInsert s.registry a }

/-- `impl Drop for Peer` (src/main.rs lines 126-132): under the lock,
remove the peer's address from `Shared.peers` — the code does this for
producers too, where the address was never inserted — then the `Peer`
and with it its `rx` are destroyed.  `Drop` runs on every teardown path,
normal or abnormal. -/
def peerDrop (s : Sys) (a : Addr) : Sys :=
  { consumers := s.consumers.filter (fun c => c.addr ≠ a),
    producers := s.producers.filter (fun x => x ≠ a),
    registry := registryRemove s.registry a }

/-- `tx.unbounded_send(packet.clone())` for the registry entry of address
`a`: succeeds, appending the frame to the consumer's queue, exactly when
the receiving half is still alive; `none` models the send error on which
the producer's `.unwrap()` panics. -/
def unboundedSend (s : Sys) (a : Addr) (f : List Nat) : Option Sys :=
  if s.consumers.any (fun c => c.addr = a) then
    some
      { s with
        consumers := s.consumers.map (fun c =>
          if c.addr = a then { c with queue := c.queue ++ [f] } else c) }
  else none

/-- The broadcast of one frame by the producer branch of `Peer::poll`
(src/main.rs lines 113-115): under the lock, send a clone of the frame to
every entry of `Shared.peers`, unwrapping each send. -/
def broadcast (s : Sys) (f : List Nat) : Option Sys :=
  List.foldlM (fun st a => unboundedSend st a f) s s.registry

/-- The lock-serialized lifecycle events of the program.  A `connect`
requires a fresh address: TCP gives simultaneously live sockets distinct
peer addresses.  A `bcast` step requires the broadcast to have succeeded;
that it always does from reachable states is proved below. -/
inductive SysStep : Sys → Sys → Prop where
  | connect (s : Sys) (a : Addr) (producer : Bool) (h : a ∉ liveAddrs s) :
      SysStep s (peerNew s a producer)
  | disconnect (s : Sys) (a : Addr) : SysStep s (peerDrop s a)
  | bcast (s s' : Sys) (f : List Nat) (h : broadcast s f = some s') : SysStep s s'

/-- The state at process start: no connections, empty map. -/
def initSys : Sys := ⟨[], [], []⟩

/-- States the program can be in. -/
inductive SysReachable : Sys → Prop where
  | init : SysReachable initSys
  | step {s s' : Sys} : SysReachable s → SysStep s s' → SysReachable s'

/-- The lifecycle invariant: the map's key set is exactly the set of live
consumer addresses, the key set has no duplicates, and no producer
address is a live consumer address. -/
def SysInv (s : Sys) : Prop :=
  (∀ a : Addr, a ∈ s.registry ↔ a ∈ consumerAddrs s) ∧
  s.registry.Nodup ∧
  (∀ a ∈ s.producers, a ∉ consumerAddrs s)

theorem consumers_any_of_mem {s : Sys} {a : Addr} (h : a ∈ consumerAddrs s) :
    s.consumers.any (fun c => c.addr = a) = true := by
  simp only [consumerAddrs, List.mem_map] at h
  obtain ⟨c, hc, hca⟩ := h
  simp only [List.any_eq_true, decide_eq_true_eq]
  exact ⟨c, hc, hca⟩

theorem unboundedSend_some {s s' : Sys} {a : Addr} {f : List Nat}
    (h : unboundedSend s a f = some s') :
    s'.consumers = s.consumers.map (fun c =>
      if c.addr = a then { c with queue := c.queue ++ [f] } else c) ∧
    s'.producers = s.producers ∧ s'.registry = s.registry := by
  unfold unboundedSend at h
  split at h
  · injection h with h'
    subst h'
    exact ⟨rfl, rfl, rfl⟩
  · exact Option.noConfusion h

theorem consumerAddrs_map_update (s : Sys) (a : Addr) (f : List Nat) :
    (s.consumers.map (fun c =>
      if c.addr = a then { c with queue := c.queue ++ [f] } else c)).map Consumer.addr =
      consumerAddrs s := by
  simp only [consumerAddrs, List.map_map]
  apply List.map_congr_left
  intro c _
  by_cases hca : c.addr = a <;> simp [hca]

theorem foldSend_shape (f : List Nat) :
    ∀ (r : List Addr) (s s' : Sys),
      List.foldlM (fun st a => unboundedSend st a f) s r = some s' →
      consumerAddrs s' = consumerAddrs s ∧ s'.producers = s.producers ∧
        s'.registry = s.registry := by
  intro r
  induction r with
  | nil =>
    intro s s' h
    simp only [List.foldlM_nil] at h
    injection h with h'
    subst h'
    exact ⟨rfl, rfl, rfl⟩
  | cons a r' ih =>
    intro s s' h
    rw [List.foldlM_cons] at h
    cases hsend : unboundedSend s a f with
    | none => rw [hsend] at h; exact Option.noConfusion h
    | some s1 =>
      rw [hsend] at h
      simp only [Option.bind_eq_bind, Option.some_bind] at h
      obtain ⟨hc, hp, hr⟩ := unboundedSend_some hsend
      obtain ⟨hc', hp', hr'⟩ := ih s1 s' h
      refine ⟨?_, hp'.trans hp, hr'.trans hr⟩
      rw [hc']
      show consumerAddrs s1 = consumerAddrs s
      simp only [consumerAddrs, hc]
      exact consumerAddrs_map_update s a f

theorem mem_consumerAddrs_filter {cs : List Consumer} {a x : Addr} :
    x ∈ (cs.filter (fun c => c.addr ≠ a)).map Consumer.addr ↔
      x ∈ cs.map Consumer.addr ∧ x ≠ a := by
  simp only [List.mem_map, List.mem_filter, decide_eq_true_eq, ne_eq]
  constructor
  · rintro ⟨c, ⟨hc, hne⟩, rfl⟩
    exact ⟨⟨c, hc, rfl⟩, hne⟩
  · rintro ⟨⟨c, hc, rfl⟩, hne⟩
    exact ⟨c, ⟨hc, hne⟩, rfl⟩

theorem peerNew_true (s : Sys) (a : Addr) :
    peerNew s a true = { s with producers := a :: s.producers } := rfl

theorem peerNew_false (s : Sys) (a : Addr) :
    peerNew s a false =
      { s with consumers := ⟨a, []⟩ :: s.consumers,
               registry := registryInsert s.registry a } := rfl

theorem sysInv_step {s s' : Sys} (hstep : SysStep s s') (hinv : SysInv s) : SysInv s' := by
  obtain ⟨hiff, hnd, hdisj⟩ := hinv
  cases hstep with
  | connect a producer hfresh =>
    have hfc : a ∉ consumerAddrs s := fun hc => hfresh (by simp [liveAddrs, hc])
    have hfp : a ∉ s.producers := fun hp => hfresh (by simp [liveAddrs, hp])
    cases producer with
    | true =>
      refine ⟨?_, ?_, ?_⟩
      · intro x
        exact hiff x
      · exact hnd
      · intro p hp
        rcases List.mem_cons.mp hp with rfl | hp'
        · exact hfc
        · exact hdisj p hp'
    | false =>
      have har : a ∉ s.registry := fun hr => hfc ((hiff a).mp hr)
      have hreg : (peerNew s a false).registry = a :: s.registry := by
        rw [peerNew_false]
        show registryInsert s.registry a = a :: s.registry
        simp [registryInsert, har]
      refine ⟨?_, ?_, ?_⟩
      · intro x
        rw [hreg]
        show x ∈ a :: s.registry ↔ x ∈ a :: consumerAddrs s
        simp only [List.mem_cons]
        exact or_congr Iff.rfl (hiff x)
      · rw [hreg]
        exact List.nodup_cons.mpr ⟨har, hnd⟩
      · intro p hp
        have hp2 : p ∈ s.producers := hp
        show p ∉ a :: consumerAddrs s
        simp only [List.mem_cons]
        rintro (rfl | hmem)
        · exact hfp hp2
        · exact hdisj p hp2 hmem
  | disconnect a =>
    refine ⟨?_, ?_, ?_⟩
    · intro x
      simp only [peerDrop, registryRemove, consumerAddrs, List.mem_filter,
        decide_eq_true_eq, ne_eq]
      rw [mem_consumerAddrs_filter]
      constructor
      · rintro ⟨hx, hne⟩
        exact ⟨by simpa [consumerAddrs] using (hiff x).mp hx, hne⟩
      · rintro ⟨hx, hne⟩
        exact ⟨(hiff x).mpr (by simpa [consumerAddrs] using hx), hne⟩
    · exact List.Nodup.filter _ hnd
    · intro p hp
      simp only [peerDrop] at hp ⊢
      have hp' : p ∈ s.producers := List.mem_of_mem_filter hp
      intro hmem
      have := (mem_consumerAddrs_filter.mp (by simpa [consumerAddrs] using hmem)).1
      exact hdisj p hp' (by simpa [consumerAddrs] using this)
  | bcast s2 f hb =>
    obtain ⟨hc', hp', hr'⟩ := foldSend_shape f s.registry s _ hb
    refine ⟨?_, ?_, ?_⟩
    · intro x
      rw [hr', hc']
      exact hiff x
    · rw [hr']
      exact hnd
    · intro p hp
      rw [hc']
      exact hdisj p (hp' ▸ hp)

theorem sysInv_of_reachable {s : Sys} (h : SysReachable s) : SysInv s := by
  induction h with
  | init =>
    refine ⟨?_, ?_, ?_⟩ <;> simp [initSys, consumerAddrs]
  | step _ hstep ih => exact sysInv_step hstep ih

/-- What one broadcast does to one consumer: the frame is appended to its
queue exactly when its address is registered. -/
def deliverTo (r : List Addr) (f : List Nat) (c : Consumer) : Consumer :=
  if c.addr ∈ r then { c with queue := c.queue ++ [f] } else c

theorem foldSend_delivers (f : List Nat) :
    ∀ (r : List Addr) (s : Sys), r.Nodup → (∀ a ∈ r, a ∈ consumerAddrs s) →
      List.foldlM (fun st a => unboundedSend st a f) s r =
        some { s with consumers := s.consumers.map (deliverTo r f) } := by
  intro r
  induction r with
  | nil =>
    intro s _ _
    simp only [List.foldlM_nil]
    have h1 : ∀ c : Consumer, deliverTo [] f c = c := by
      intro c
      simp [deliverTo]
    have hmap : s.consumers.map (deliverTo [] f) = s.consumers :=
      (List.map_congr_left (fun c _ => h1 c)).trans (List.map_id s.consumers)
    rw [hmap]
    rfl
  | cons a r' ih =>
    intro s hnd hsub
    have hnd' := List.nodup_cons.mp hnd
    have ha : a ∈ consumerAddrs s := hsub a (by simp)
    have hany := consumers_any_of_mem ha
    have hsend : unboundedSend s a f =
        some { s with consumers := s.consumers.map (fun c =>
          if c.addr = a then { c with queue := c.queue ++ [f] } else c) } := by
      simp [unboundedSend, hany]
    rw [List.foldlM_cons, hsend]
    simp only [Option.bind_eq_bind, Option.some_bind]
    have hsub' : ∀ b ∈ r', b ∈ consumerAddrs
        { s with consumers := s.consumers.map (fun c =>
          if c.addr = a then { c with queue := c.queue ++ [f] } else c) } := by
      intro b hb
      show b ∈ (s.consumers.map _).map Consumer.addr
      rw [consumerAddrs_map_update s a f]
      exact hsub b (by simp [hb])
    rw [ih _ hnd'.2 hsub']
    have hpt : ∀ c : Consumer,
        deliverTo r' f (if c.addr = a then { c with queue := c.queue ++ [f] } else c) =
          deliverTo (a :: r') f c := by
      intro c
      by_cases hca : c.addr = a
      · simp [deliverTo, hca, hnd'.1]
      · by_cases hcr : c.addr ∈ r' <;> simp [deliverTo, hca, hcr]
    congr 2
    rw [List.map_map]
    exact List.map_congr_left (fun c _ => hpt c)

/-- C3: in every reachable state an address is in `Shared.peers` if and
only if a live consumer connection with that address exists; the insert
happens exactly at consumer construction in `Peer::new` (a producer
construction leaves the map unchanged), the removal happens at `Drop`,
which Rust runs exactly once on every teardown path, and removing an
absent address leaves the map as it was. -/
theorem registry_C3_iff_live (s : Sys) (hs : SysReachable s) :
    (∀ a : Addr, a ∈ s.registry ↔ a ∈ consumerAddrs s) ∧
    (∀ (t : Sys) (a : Addr), (peerNew t a true).registry = t.registry) ∧
    (∀ (t : Sys) (a : Addr), (peerNew t a false).registry = registryInsert t.registry a) ∧
    (∀ (t : Sys) (a : Addr), (peerDrop t a).registry = registryRemove t.registry a) ∧
    (∀ (r : List Addr) (a : Addr), a ∉ r → registryRemove r a = r) := by
  refine ⟨(sysInv_of_reachable hs).1, fun t a => by simp [peerNew],
    fun t a => by simp [peerNew], fun t a => rfl, ?_⟩
  intro r a har
  unfold registryRemove
  rw [List.filter_eq_self]
  intro x hx
  simp only [ne_eq, decide_eq_true_eq]
  rintro rfl
  exact har hx

/-- Witness for C3: the reachable one-consumer state, a producer
construction, a consumer construction, a drop, and an absent-address
removal, all at concrete inputs. -/
theorem registry_C3_witness :
    ((1 : Addr) ∈ (peerNew initSys 1 false).registry ↔
      (1 : Addr) ∈ consumerAddrs (peerNew initSys 1 false)) ∧
    (peerNew initSys 2 true).registry = initSys.registry ∧
    (peerNew initSys 2 false).registry = registryInsert initSys.registry 2 ∧
    (peerDrop initSys 2).registry = registryRemove initSys.registry 2 ∧
    registryRemove [3] 2 = [3] := by
  have h := registry_C3_iff_live (peerNew initSys 1 false)
    (SysReachable.step SysReachable.init (SysStep.connect initSys 1 false (by decide)))
  exact ⟨h.1 1, h.2.1 initSys 2, h.2.2.1 initSys 2, h.2.2.2.1 initSys 2,
    h.2.2.2.2 [3] 2 (by decide)⟩

/-- C4: from any reachable state, broadcasting one frame succeeds: the
producer's `.unwrap()` never sees a send error, the broadcast never
blocks, and a clone of the frame is appended to exactly the queues of
the currently registered consumers.  A consumer that has disappeared is
no longer registered (its `Drop` removed it under the lock before its
`rx` was destroyed), so no delivery to it is attempted at all. -/
theorem broadcast_C4_delivers (s : Sys) (f : List Nat) (hs : SysReachable s) :
    broadcast s f =
      some { s with consumers := s.consumers.map (deliverTo s.registry f) } := by
  obtain ⟨hiff, hnd, -⟩ := sysInv_of_reachable hs
  exact foldSend_delivers f s.registry s hnd (fun a ha => (hiff a).mp ha)

/-- Witness for C4: a consumer connects, disconnects before any producer
data arrives, a producer connects and broadcasts one frame; the
broadcast succeeds and delivers to nobody. -/
theorem broadcast_C4_witness :
    broadcast ⟨[], [2], []⟩ [9] = some ⟨[], [2], []⟩ := by
  have hreach : SysReachable (⟨[], [2], []⟩ : Sys) := by
    have h3 := SysReachable.step (SysReachable.step (SysReachable.step SysReachable.init
      (SysStep.connect initSys 1 false (by decide)))
      (SysStep.disconnect (peerNew initSys 1 false) 1))
      (SysStep.connect (peerDrop (peerNew initSys 1 false) 1) 2 true (by decide))
    exact h3
  simpa using broadcast_C4_delivers ⟨[], [2], []⟩ [9] hreach

/-- C8: producers are never registered: constructing a producer `Peer`
leaves `Shared.peers` (and the consumer list) unchanged, and tearing a
producer down removes nothing from the map — its address was never there
— leaving every consumer's entry and every live consumer untouched. -/
theorem producer_C8_never_registered (s : Sys) (a : Addr) (hs : SysReachable s)
    (ha : a ∈ s.producers) :
    (∀ (t : Sys) (b : Addr), (peerNew t b true).registry = t.registry ∧
      (peerNew t b true).consumers = t.consumers) ∧
    (peerDrop s a).registry = s.registry ∧
    (peerDrop s a).consumers = s.consumers := by
  obtain ⟨hiff, hnd, hdisj⟩ := sysInv_of_reachable hs
  have hnc : a ∉ consumerAddrs s := hdisj a ha
  have hnr : a ∉ s.registry := fun hr => hnc ((hiff a).mp hr)
  refine ⟨fun t b => ⟨by simp [peerNew], by simp [peerNew]⟩, ?_, ?_⟩
  · show registryRemove s.registry a = s.registry
    unfold registryRemove
    rw [List.filter_eq_self]
    intro x hx
    simp only [ne_eq, decide_eq_true_eq]
    rintro rfl
    exact hnr hx
  · show s.consumers.filter (fun c => c.addr ≠ a) = s.consumers
    rw [List.filter_eq_self]
    intro c hc
    simp only [ne_eq, decide_eq_true_eq]
    intro heq
    exact hnc (by simpa [consumerAddrs] using List.mem_map.mpr ⟨c, hc, heq⟩)

/-- Witness for C8: the reachable one-producer state torn down. -/
theorem producer_C8_witness :
    ((peerNew initSys 3 true).registry = initSys.registry ∧
      (peerNew initSys 3 true).consumers = initSys.consumers) ∧
    (peerDrop ⟨[], [2], []⟩ 2).registry = (⟨[], [2], []⟩ : Sys).registry ∧
    (peerDrop ⟨[], [2], []⟩ 2).consumers = (⟨[], [2], []⟩ : Sys).consumers := by
  have h := producer_C8_never_registered ⟨[], [2], []⟩ 2
    (SysReachable.step SysReachable.init (SysStep.connect initSys 2 true (by decide)))
    (by decide)
  exact ⟨h.1 initSys 3, h.2.1, h.2.2⟩

/-- The port the consumer listener binds (src/main.rs line 255):
`cfg.port + 1` computed on a `u16` (`cfg.port : u16`), so the addition
wraps modulo `2 ^ 16` (release build; a debug build aborts on the
overflow instead — either way the listener is not on port `p + 1`). -/
def consumerPort (p : Nat) : Nat := (p + 1) % 65536

/-- C9: the claim says that for every 16-bit producer port `p` the
consumer listener binds `p + 1`.  At `p = 65535` the `u16` addition
overflows: the computed port is `0`, not `65536`. -/
theorem consumerPort_C9_counterexample :
    65535 < 65536 ∧ consumerPort 65535 = 0 ∧ consumerPort 65535 ≠ 65535 + 1 := by
  refine ⟨by decide, by decide, by decide⟩

/-- C9 (amended): for every producer port `p` with `p + 1` still a 16-bit
value — every port except 65535 — the consumer listener binds `p + 1`;
at `p = 65535` the addition wraps to port `0` (or aborts in a debug
build). -/
theorem consumerPort_C9_amended (p : Nat) (h : p + 1 < 65536) :
    consumerPort p = p + 1 :=
  Nat.mod_eq_of_lt h

/-- Witness for C9 (amended) at the default producer port 12345. -/
theorem consumerPort_C9_witness :
    (12345 + 1 < 65536) ∧ consumerPort 12345 = 12345 + 1 :=
  ⟨by decide, consumerPort_C9_amended 12345 (by decide)⟩

end Restreamer
